import Mathlib

/-!
# Verification of the `decimal-rs` string-parsing pipeline

Shallow embedding of `src/parse.rs`: byte strings are `List Nat` (each
element a `u8` value), the parsing stages are translated function by
function, and the resulting theorems settle the frozen claims about the
parser.

The constants `MAX_PRECISION`, `MAX_SCALE`, `MIN_SCALE`, the `Decimal`
value type and its trusted constructor `from_parts_unchecked` live in the
crate's `decimal` module, which is not part of the sources under
verification; they are modelled from the specification (and pinned by the
parser's own test suite, which exercises them at `1e127`, `1e-131` and the
38-digit maximum literal).
-/

namespace DecimalRs

/-- Error type of the parser (`DecimalParseError` in `error.rs`):
`Empty` for blank input, `Invalid` for grammar violations, `Overflow`
for precision/scale/exponent range violations. -/
inductive DecimalParseError where
  | Empty
  | Invalid
  | Overflow
deriving DecidableEq, Repr

/-- Sign tag, no magnitude (`enum Sign` in `parse.rs`). -/
inductive Sign where
  | Positive
  | Negative
deriving DecidableEq, Repr

/-- The interesting parts of a decimal string (`struct Parts` in
`parse.rs`); the digit runs are byte slices, here byte lists. -/
structure Parts where
  sign : Sign
  integral : List Nat
  fractional : List Nat
  exp : Int
deriving DecidableEq, Repr

/-- Modelled from the spec: maximum count of significant decimal digits,
owned by the value-type module (not under the verified sources).  The spec
gives "38 digits for a 128-bit accumulator" and the parser's tests accept a
38-digit literal. -/
def MAX_PRECISION : Nat := 38

/-- Modelled from the spec: maximum scale, owned by the value-type module.
Pinned by the tests: `1e-131` overflows while `-1e-10` parses. -/
def MAX_SCALE : Int := 130

/-- Modelled from the spec: most negative permitted scale, owned by the
value-type module.  Pinned by the tests: `1e127` overflows while `1e10`
parses. -/
def MIN_SCALE : Int := -126

/-- Modelled from the spec: the decimal value — unscaled 128-bit magnitude,
small signed scale, sign flag.  The `decimal` module owning it is not under
the verified sources. -/
structure Decimal where
  int : Nat
  scale : Int
  negative : Bool
deriving DecidableEq, Repr

/-- Modelled from the spec: the trusted, validation-free constructor of the
value type, callable only from this pipeline. -/
def Decimal.from_parts_unchecked (int : Nat) (scale : Int) (negative : Bool) : Decimal :=
  ⟨int, scale, negative⟩

/-- Modulus of the `u128` accumulator. -/
def U128_MOD : Nat := 2 ^ 128

/-- `u8::is_ascii_digit`: byte is `b'0'..=b'9'`. -/
def isDigitByte (b : Nat) : Bool := 48 ≤ b && b ≤ 57

/-- `u8::is_ascii_whitespace`: space, horizontal tab, line feed, form feed
or carriage return. -/
def isWhitespaceByte (b : Nat) : Bool :=
  b == 32 || b == 9 || b == 10 || b == 12 || b == 13

/-- `u8::to_ascii_lowercase`: shift `b'A'..=b'Z'` down into lowercase. -/
def toAsciiLowercase (b : Nat) : Nat := if 65 ≤ b && b ≤ 90 then b + 32 else b

/-- `extract_sign`: split an optional leading `+`/`-` off the byte string,
without inspecting the rest (`s.first()` is `head?`, `&s[1..]` is `tail`). -/
def extract_sign (s : List Nat) : Sign × List Nat :=
  if s.head? = some 43 then (Sign.Positive, s.tail)
  else if s.head? = some 45 then (Sign.Negative, s.tail)
  else (Sign.Positive, s)

/-- `eat_digits`: carve off decimal digits up to the first non-digit. -/
def eat_digits (s : List Nat) : List Nat × List Nat :=
  (s.takeWhile isDigitByte, s.dropWhile isDigitByte)

/-- `eat_whitespaces`: carve off whitespace up to the first
non-whitespace byte. -/
def eat_whitespaces (s : List Nat) : List Nat :=
  s.dropWhile isWhitespaceByte

/-- The `while number.first() == Some(&b'0')` loop of `extract_exponent`:
drop all leading `b'0'` bytes. -/
def stripLeadingZeros (l : List Nat) : List Nat :=
  l.dropWhile (fun b => b == 48)

/-- The `while integral.first() == Some(&b'0') && integral.len() > 1` loop
of `parse_decimal`: drop leading `b'0'` bytes while more than one byte
remains. -/
def stripIntegralZeros : List Nat → List Nat
  | [] => []
  | [a] => [a]
  | a :: b :: t => if a = 48 then stripIntegralZeros (b :: t) else a :: b :: t

/-- The `while fractional.last() == Some(&b'0')` loop of `parse_decimal`:
drop all trailing `b'0'` bytes (`rdropWhile` is exactly that loop). -/
def stripTrailingZeros (l : List Nat) : List Nat :=
  l.rdropWhile (fun b => b == 48)

/-- The digit-decoding loop of `extract_exponent`:
`result = result * 10 + (n - b'0') as i16`. -/
def foldExpDigits (l : List Nat) : Int :=
  l.foldl (fun r n => r * 10 + ((n - 48 : Nat) : Int)) 0

/-- The signed exponent value decoded by `extract_exponent` from the
byte string following the `e`/`E` marker: decode the normalized digit run
and apply the extracted sign. -/
def expValue (s : List Nat) : Int :=
  match (extract_sign s).1 with
  | .Positive => foldExpDigits (stripLeadingZeros (eat_digits (extract_sign s).2).1)
  | .Negative => -(foldExpDigits (stripLeadingZeros (eat_digits (extract_sign s).2).1))

/-- `extract_exponent`: optional sign, mandatory digit run, leading-zero
strip, 3-digit structural cap, decode (`expValue`), and final range check
against the scale bounds. -/
def extract_exponent (s : List Nat) : Except DecimalParseError (Int × List Nat) :=
  let number := (eat_digits (extract_sign s).2).1
  let s2 := (eat_digits (extract_sign s).2).2
  if number.isEmpty then .error .Invalid
  else
    if (stripLeadingZeros number).length > 3 then .error .Overflow
    else
      if expValue s > -MIN_SCALE ∨ expValue s < -MAX_SCALE then .error .Overflow
      else .ok (expValue s, s2)

/-- `parse_decimal`: validate the mantissa grammar and locate the integral
part, the fractional part, and the exponent.  The Rust `match s.first()`
on `b'e' | b'E'`, `b'.'` and the default arm becomes an `if` cascade on
`head?`; `&s[1..]` is `tail`. -/
def parse_decimal (s : List Nat) : Except DecimalParseError (Parts × List Nat) :=
  let sign := (extract_sign s).1
  let s1 := (extract_sign s).2
  if s1.isEmpty then .error .Invalid
  else
    let integral := stripIntegralZeros (eat_digits s1).1
    let s2 := (eat_digits s1).2
    if s2.head? = some 101 ∨ s2.head? = some 69 then
      if integral.isEmpty then .error .Invalid
      else
        match extract_exponent s2.tail with
        | .error e => .error e
        | .ok (exp, s3) => .ok (⟨sign, integral, [], exp⟩, s3)
    else if s2.head? = some 46 then
      let fractional0 := (eat_digits s2.tail).1
      let s3 := (eat_digits s2.tail).2
      if integral.isEmpty && fractional0.isEmpty then .error .Invalid
      else
        let fractional := stripTrailingZeros fractional0
        if s3.head? = some 101 ∨ s3.head? = some 69 then
          match extract_exponent s3.tail with
          | .error e => .error e
          | .ok (exp, s4) => .ok (⟨sign, integral, fractional, exp⟩, s4)
        else .ok (⟨sign, integral, fractional, 0⟩, s3)
    else
      if integral.isEmpty then .error .Invalid
      else .ok (⟨sign, integral, [], 0⟩, s2)

/-- `extract_nan`: case-insensitive three-byte lookahead for `"nan"`;
inputs shorter than three bytes never match. -/
def extract_nan (s : List Nat) : Bool × List Nat :=
  match s with
  | a :: b :: c :: rest =>
      if toAsciiLowercase a == 110 && toAsciiLowercase b == 97 &&
         toAsciiLowercase c == 110 then
        (true, rest)
      else (false, s)
  | _ => (false, s)

/-- The digit-accumulation loops of `parse_str`:
`int = int * 10 + (i - b'0') as u128` on the wrapping `u128`. -/
def foldDigitsU128 (acc : Nat) (l : List Nat) : Nat :=
  l.foldl (fun a b => (a * 10 + (b - 48)) % U128_MOD) acc

/-- The `precision` computed by `parse_str`: the fractional run length when
the integral run is exactly `"0"`, the sum of the run lengths otherwise. -/
def codePrecision (p : Parts) : Nat :=
  if p.integral = [48] then p.fractional.length
  else p.integral.length + p.fractional.length

/-- The `scale` computed by `parse_str`: fractional run length minus
exponent. -/
def codeScale (p : Parts) : Int :=
  (p.fractional.length : Int) - p.exp

/-- `parse_str`: run the mantissa grammar, check precision and scale
bounds, fold the digit runs into the `u128` accumulator, canonicalize the
sign of zero, and build the value through the trusted constructor. -/
def parse_str (s : List Nat) : Except DecimalParseError (Decimal × List Nat) :=
  match parse_decimal s with
  | .error e => .error e
  | .ok (p, s1) =>
      let precision := codePrecision p
      if precision > MAX_PRECISION then .error .Overflow
      else
        let scale := codeScale p
        if scale > MAX_SCALE ∨ scale < MIN_SCALE then .error .Overflow
        else
          let int := foldDigitsU128 (foldDigitsU128 0 p.integral) p.fractional
          let negative := if int ≠ 0 then decide (p.sign = Sign.Negative) else false
          .ok (Decimal.from_parts_unchecked int scale negative, s1)

/-- `from_str`: trim leading whitespace, reject blank input, reject `NaN`,
parse the number, and reject trailing non-whitespace garbage. -/
def from_str (s : List Nat) : Except DecimalParseError Decimal :=
  let s1 := eat_whitespaces s
  if s1.isEmpty then .error .Empty
  else
    let (is_nan, s2) := extract_nan s1
    if is_nan then .error .Invalid
    else
      match parse_str s2 with
      | .error e => .error e
      | .ok (n, s3) =>
          if s3.any (fun b => !isWhitespaceByte b) then .error .Invalid
          else .ok n

instance {ε α : Type} [DecidableEq ε] [DecidableEq α] :
    DecidableEq (Except ε α) := fun a b =>
  match a, b with
  | .error e, .error f =>
      if h : e = f then .isTrue (by rw [h]) else .isFalse (by simp [h])
  | .ok x, .ok y =>
      if h : x = y then .isTrue (by rw [h]) else .isFalse (by simp [h])
  | .error _, .ok _ => .isFalse (by simp)
  | .ok _, .error _ => .isFalse (by simp)

/-- Rational numeric value denoted by a `Decimal`:
`±int × 10^(−scale)`. -/
def Decimal.val (d : Decimal) : ℚ :=
  (if d.negative then -1 else 1) * (d.int : ℚ) * (10 : ℚ) ^ (-d.scale)

/-- Bytes of the literal `"00000000001e00000000001"`. -/
def lit_C1 : List Nat :=
  List.replicate 10 48 ++ [49, 101] ++ List.replicate 10 48 ++ [49]

/-- The digit magnitude accumulated by `parse_str` for given parts. -/
def accumulated (p : Parts) : Nat :=
  foldDigitsU128 (foldDigitsU128 0 p.integral) p.fractional

/-- The claim's (spec-glossary) notion of precision, stated from the
spec's words for comparison with the source's `codePrecision`: the count
of significant decimal digits retained in the unscaled magnitude, i.e.
the combined digit run with leading zeros stripped. -/
def specPrecision (p : Parts) : Nat :=
  (stripLeadingZeros (p.integral ++ p.fractional)).length

/-- Bytes of the literal `"0.0999…9"` with 38 nines. -/
def lit_C2 : List Nat := [48, 46, 48] ++ List.replicate 38 57

/-- Parts produced for `lit_C2`. -/
def parts_C2 : Parts := ⟨Sign.Positive, [48], 48 :: List.replicate 38 57, 0⟩

/-- Mathematical (non-wrapping) counterpart of the accumulation loops. -/
def foldDigitsExact (acc : Nat) (l : List Nat) : Nat :=
  l.foldl (fun a b => a * 10 + (b - 48)) acc

/-! ## Checked (panic-modelling) variants

In a debug build, Rust panics on `u8` subtraction underflow (`n - b'0'`
for a non-digit byte), on `u128`/`i16` arithmetic overflow, and on an
out-of-bounds slice (`s[0..3]`).  The checked variants below return
`none` exactly where the corresponding Rust expression would panic; the
refinement theorem `C9_no_panic` shows the pipeline never reaches such a
point on any input. -/

/-- `n - b'0'` with the underflow guard made explicit. -/
def decodeDigitChecked (b : Nat) : Option Nat :=
  if 48 ≤ b then some (b - 48) else none

/-- The `u128` accumulation loop with underflow and overflow checks. -/
def foldDigitsU128Checked (acc : Nat) (l : List Nat) : Option Nat :=
  l.foldl (fun a b =>
    match a with
    | none => none
    | some a =>
        match decodeDigitChecked b with
        | none => none
        | some d => if a * 10 + d < U128_MOD then some (a * 10 + d) else none)
    (some acc)

/-- The `i16` exponent decoding loop with underflow and overflow checks
(`i16::MAX = 32767`). -/
def foldExpDigitsChecked (l : List Nat) : Option Int :=
  l.foldl (fun r n =>
    match r with
    | none => none
    | some r =>
        match decodeDigitChecked n with
        | none => none
        | some d =>
            if r * 10 + (d : Int) ≤ 32767 then some (r * 10 + (d : Int))
            else none)
    (some 0)

/-- `extract_exponent` with checked arithmetic. -/
def extract_exponent_checked (s : List Nat) :
    Option (Except DecimalParseError (Int × List Nat)) :=
  let number := (eat_digits (extract_sign s).2).1
  let s2 := (eat_digits (extract_sign s).2).2
  if number.isEmpty then some (.error .Invalid)
  else
    if (stripLeadingZeros number).length > 3 then some (.error .Overflow)
    else
      match foldExpDigitsChecked (stripLeadingZeros number) with
      | none => none
      | some v =>
          let exp :=
            match (extract_sign s).1 with
            | .Positive => v
            | .Negative => -v
          if exp > -MIN_SCALE ∨ exp < -MAX_SCALE then some (.error .Overflow)
          else some (.ok (exp, s2))

/-- `parse_decimal` threading the checked exponent extractor. -/
def parse_decimal_checked (s : List Nat) :
    Option (Except DecimalParseError (Parts × List Nat)) :=
  let sign := (extract_sign s).1
  let s1 := (extract_sign s).2
  if s1.isEmpty then some (.error .Invalid)
  else
    let integral := stripIntegralZeros (eat_digits s1).1
    let s2 := (eat_digits s1).2
    if s2.head? = some 101 ∨ s2.head? = some 69 then
      if integral.isEmpty then some (.error .Invalid)
      else
        match extract_exponent_checked s2.tail with
        | none => none
        | some (.error e) => some (.error e)
        | some (.ok (exp, s3)) => some (.ok (⟨sign, integral, [], exp⟩, s3))
    else if s2.head? = some 46 then
      let fractional0 := (eat_digits s2.tail).1
      let s3 := (eat_digits s2.tail).2
      if integral.isEmpty && fractional0.isEmpty then some (.error .Invalid)
      else
        let fractional := stripTrailingZeros fractional0
        if s3.head? = some 101 ∨ s3.head? = some 69 then
          match extract_exponent_checked s3.tail with
          | none => none
          | some (.error e) => some (.error e)
          | some (.ok (exp, s4)) =>
              some (.ok (⟨sign, integral, fractional, exp⟩, s4))
        else some (.ok (⟨sign, integral, fractional, 0⟩, s3))
    else
      if integral.isEmpty then some (.error .Invalid)
      else some (.ok (⟨sign, integral, [], 0⟩, s2))

/-- `extract_nan` with the three-byte slice guard made explicit: the
`try_into().unwrap()` on `s[0..3]` is only reachable when at least three
bytes remain. -/
def extract_nan_checked (s : List Nat) : Option (Bool × List Nat) :=
  if s.length < 3 then some (false, s)
  else
    match s with
    | a :: b :: c :: rest =>
        some
          (if toAsciiLowercase a == 110 && toAsciiLowercase b == 97 &&
              toAsciiLowercase c == 110 then
            (true, rest)
          else (false, s))
    | _ => none

/-- `parse_str` with checked digit accumulation. -/
def parse_str_checked (s : List Nat) :
    Option (Except DecimalParseError (Decimal × List Nat)) :=
  match parse_decimal_checked s with
  | none => none
  | some (.error e) => some (.error e)
  | some (.ok (p, s1)) =>
      if codePrecision p > MAX_PRECISION then some (.error .Overflow)
      else if codeScale p > MAX_SCALE ∨ codeScale p < MIN_SCALE then
        some (.error .Overflow)
      else
        match foldDigitsU128Checked 0 p.integral with
        | none => none
        | some i1 =>
            match foldDigitsU128Checked i1 p.fractional with
            | none => none
            | some int =>
                some (.ok (Decimal.from_parts_unchecked int (codeScale p)
                  (if int ≠ 0 then decide (p.sign = Sign.Negative) else false),
                  s1))

/-- `from_str` composed from the checked stages. -/
def from_str_checked (s : List Nat) : Option (Except DecimalParseError Decimal) :=
  let s1 := eat_whitespaces s
  if s1.isEmpty then some (.error .Empty)
  else
    match extract_nan_checked s1 with
    | none => none
    | some (is_nan, s2) =>
        if is_nan then some (.error .Invalid)
        else
          match parse_str_checked s2 with
          | none => none
          | some (.error e) => some (.error e)
          | some (.ok (n, s3)) =>
              if s3.any (fun b => !isWhitespaceByte b) then
                some (.error .Invalid)
              else some (.ok n)

/-! ## Basic facts about the scanning helpers -/

theorem whitespace_not_digit {b : Nat} (h : isWhitespaceByte b = true) :
    isDigitByte b = false := by
  simp only [isWhitespaceByte, Bool.or_eq_true, beq_iff_eq] at h
  rcases h with ((((h | h) | h) | h) | h) <;> subst h <;> decide

theorem mem_eat_digits_fst {s : List Nat} {b : Nat}
    (h : b ∈ (eat_digits s).1) : isDigitByte b = true :=
  List.mem_takeWhile_imp h

theorem mem_stripIntegralZeros : ∀ {l : List Nat} {b : Nat},
    b ∈ stripIntegralZeros l → b ∈ l
  | [], _, h => h
  | [_], _, h => h
  | a :: c :: t, b, h => by
      rw [stripIntegralZeros] at h
      split at h
      · exact List.mem_cons_of_mem _ (mem_stripIntegralZeros h)
      · exact h

theorem mem_stripTrailingZeros {l : List Nat} {b : Nat}
    (h : b ∈ stripTrailingZeros l) : b ∈ l := by
  unfold stripTrailingZeros List.rdropWhile at h
  rw [List.mem_reverse] at h
  have := (List.dropWhile_sublist _).mem h
  rwa [List.mem_reverse] at this

theorem mem_stripLeadingZeros {l : List Nat} {b : Nat}
    (h : b ∈ stripLeadingZeros l) : b ∈ l :=
  (List.dropWhile_sublist _).mem h

/-- Every byte of the integral and fractional runs produced by a
successful `parse_decimal` is an ASCII digit. -/
theorem parse_decimal_digits {s : List Nat} {p : Parts} {r : List Nat}
    (h : parse_decimal s = .ok (p, r)) :
    (∀ b ∈ p.integral, isDigitByte b = true) ∧
    (∀ b ∈ p.fractional, isDigitByte b = true) := by
  have hint : ∀ b ∈ stripIntegralZeros (eat_digits (extract_sign s).2).1,
      isDigitByte b = true :=
    fun b hb => mem_eat_digits_fst (mem_stripIntegralZeros hb)
  have hfrac : ∀ t : List Nat, ∀ b ∈ stripTrailingZeros (eat_digits t).1,
      isDigitByte b = true :=
    fun t b hb => mem_eat_digits_fst (mem_stripTrailingZeros hb)
  unfold parse_decimal at h
  simp only [] at h
  split at h
  · exact absurd h (by simp)
  split at h
  · split at h
    · exact absurd h (by simp)
    · split at h
      · exact absurd h (by simp)
      · simp only [Except.ok.injEq, Prod.mk.injEq] at h
        obtain ⟨hp, _⟩ := h
        subst hp
        exact ⟨hint, by intro b hb; simp at hb⟩
  split at h
  · split at h
    · exact absurd h (by simp)
    · split at h
      · split at h
        · exact absurd h (by simp)
        · simp only [Except.ok.injEq, Prod.mk.injEq] at h
          obtain ⟨hp, _⟩ := h
          subst hp
          exact ⟨hint, hfrac _⟩
      · simp only [Except.ok.injEq, Prod.mk.injEq] at h
        obtain ⟨hp, _⟩ := h
        subst hp
        exact ⟨hint, hfrac _⟩
  · split at h
    · exact absurd h (by simp)
    · simp only [Except.ok.injEq, Prod.mk.injEq] at h
      obtain ⟨hp, _⟩ := h
      subst hp
      exact ⟨hint, by intro b hb; simp at hb⟩

/-- Characterization of `parse_str` after a successful `parse_decimal`:
precision check, scale check, then construction. -/
theorem parse_str_char {s : List Nat} {p : Parts} {r : List Nat}
    (h : parse_decimal s = .ok (p, r)) :
    parse_str s =
      if codePrecision p > MAX_PRECISION then .error .Overflow
      else if codeScale p > MAX_SCALE ∨ codeScale p < MIN_SCALE then .error .Overflow
      else
        .ok (Decimal.from_parts_unchecked (accumulated p) (codeScale p)
          (if accumulated p ≠ 0 then decide (p.sign = Sign.Negative) else false), r) := by
  unfold parse_str
  rw [h]
  rfl

/-- A successful `from_str` result comes from a successful `parse_str`
on the trimmed input. -/
theorem from_str_ok_parse_str {s : List Nat} {d : Decimal}
    (h : from_str s = .ok d) :
    ∃ t r, parse_str t = .ok (d, r) := by
  unfold from_str at h
  simp only [] at h
  split at h
  · exact absurd h (by simp)
  split at h
  · exact absurd h (by simp)
  split at h
  · exact absurd h (by simp)
  · rename_i n s3 heq
    split at h
    · exact absurd h (by simp)
    · simp only [Except.ok.injEq] at h
      subst h
      exact ⟨_, _, heq⟩

/-! ## Claim theorems -/

/-- C1 (counterexample): parsing `"00000000001e00000000001"` does not
produce the value with unscaled magnitude 10 and scale 0 that the claim
describes. -/
theorem C1_counterexample :
    from_str lit_C1 ≠ .ok (Decimal.from_parts_unchecked 10 0 false) := by
  decide

/-- C1 (amended): parsing the literal `"00000000001e00000000001"` succeeds
and produces the decimal value with unscaled magnitude 1, scale −1, and
non-negative sign — the numeric value 10, which renders as `"10"`. -/
theorem C1_exponent_literal :
    from_str lit_C1 = .ok (Decimal.from_parts_unchecked 1 (-1) false) ∧
    (Decimal.from_parts_unchecked 1 (-1) false).val = 10 := by
  constructor
  · rfl
  · norm_num [Decimal.val, Decimal.from_parts_unchecked]

/-- Zero-magnitude results of `parse_str` always carry a non-negative
sign flag. -/
theorem parse_str_zero_nonneg {s : List Nat} {d : Decimal} {r : List Nat}
    (h : parse_str s = .ok (d, r)) (hz : d.int = 0) : d.negative = false := by
  unfold parse_str at h
  split at h
  · exact absurd h (by simp)
  · simp only [] at h
    split at h
    · exact absurd h (by simp)
    split at h
    · exact absurd h (by simp)
    simp only [Except.ok.injEq, Prod.mk.injEq] at h
    obtain ⟨hd, _⟩ := h
    subst hd
    simp only [Decimal.from_parts_unchecked] at hz ⊢
    simp [hz]

/-- C3: every successfully parsed value with zero unscaled magnitude is
non-negative, whatever sign character the text carried; in particular
`"-0"`, `"-0.0"` and `"-0e5"` all parse successfully to non-negative zero
values denoting the same number 0. -/
theorem C3_canonical_zero :
    (∀ s d, from_str s = .ok d → d.int = 0 → d.negative = false) ∧
    from_str [45, 48] = .ok (Decimal.from_parts_unchecked 0 0 false) ∧
    from_str [45, 48, 46, 48] = .ok (Decimal.from_parts_unchecked 0 0 false) ∧
    from_str [45, 48, 101, 53] = .ok (Decimal.from_parts_unchecked 0 (-5) false) ∧
    (Decimal.from_parts_unchecked 0 0 false).val = 0 ∧
    (Decimal.from_parts_unchecked 0 (-5) false).val = 0 := by
  refine ⟨?_, rfl, rfl, rfl, ?_, ?_⟩
  · intro s d h hz
    obtain ⟨t, r, ht⟩ := from_str_ok_parse_str h
    exact parse_str_zero_nonneg ht hz
  · simp [Decimal.val, Decimal.from_parts_unchecked]
  · simp [Decimal.val, Decimal.from_parts_unchecked]

/-- C3 (witness): the invariant applied to the concrete input `"-0"`. -/
theorem C3_witness :
    from_str [45, 48] = .ok (Decimal.from_parts_unchecked 0 0 false) ∧
    (Decimal.from_parts_unchecked 0 0 false).negative = false :=
  ⟨rfl, C3_canonical_zero.1 [45, 48] _ rfl rfl⟩

/-- C4: for any literal accepted by the mantissa grammar, the constructed
scale equals the normalized fractional run length minus the exponent;
that quantity outside `[MIN_SCALE, MAX_SCALE]` makes `parse_str` fail with
Overflow, while (precision permitting) any value within the bounds —
including exactly the bounds — succeeds. -/
theorem C4_scale_rule {s : List Nat} {p : Parts} {r : List Nat}
    (h : parse_decimal s = .ok (p, r)) :
    (∀ d r2, parse_str s = .ok (d, r2) →
      d.scale = (p.fractional.length : Int) - p.exp) ∧
    ((codeScale p > MAX_SCALE ∨ codeScale p < MIN_SCALE) →
      parse_str s = .error .Overflow) ∧
    (codePrecision p ≤ MAX_PRECISION → MIN_SCALE ≤ codeScale p →
      codeScale p ≤ MAX_SCALE → ∃ d, parse_str s = .ok (d, r)) := by
  rw [parse_str_char h]
  refine ⟨?_, ?_, ?_⟩
  · intro d r2 hd
    split at hd
    · exact absurd hd (by simp)
    split at hd
    · exact absurd hd (by simp)
    simp only [Except.ok.injEq, Prod.mk.injEq] at hd
    obtain ⟨hdd, _⟩ := hd
    subst hdd
    rfl
  · intro hout
    by_cases hprec : codePrecision p > MAX_PRECISION
    · rw [if_pos hprec]
    · rw [if_neg hprec, if_pos hout]
  · intro h1 h2 h3
    rw [if_neg (by omega), if_neg ((not_or).mpr ⟨by omega, by omega⟩)]
    exact ⟨_, rfl⟩

/-- C4 (witness): the literal `"1e126"` reaches exactly the scale
MIN_SCALE = −126 and parses successfully. -/
theorem C4_witness :
    parse_decimal [49, 101, 49, 50, 54] =
      .ok (⟨Sign.Positive, [49], [], 126⟩, []) ∧
    ∃ d, parse_str [49, 101, 49, 50, 54] = .ok (d, []) :=
  have h : parse_decimal [49, 101, 49, 50, 54] =
      .ok (⟨Sign.Positive, [49], [], 126⟩, []) := rfl
  ⟨h, (C4_scale_rule h).2.2 (by decide) (by decide) (by decide)⟩

/-- C2 (counterexample): `"0.0"` followed by 38 nines has exactly
MAX_PRECISION = 38 significant digits and an in-range scale, yet parsing
fails with Overflow — the code counts the leading fractional zero as part
of the precision. -/
theorem C2_counterexample :
    parse_decimal lit_C2 = .ok (parts_C2, []) ∧
    specPrecision parts_C2 = MAX_PRECISION ∧
    MIN_SCALE ≤ codeScale parts_C2 ∧ codeScale parts_C2 ≤ MAX_SCALE ∧
    from_str lit_C2 = .error .Overflow :=
  ⟨rfl, by decide, by decide, by decide, rfl⟩

/-- C2 (amended): with precision counted as the code counts it — the
fractional run length when the integral run is exactly `"0"`, the sum of
the two run lengths otherwise, so leading fractional zeros are
significant — a literal of exactly MAX_PRECISION digits (scale in range)
parses successfully and one of MAX_PRECISION + 1 digits fails with
Overflow. -/
theorem C2_precision_boundary {s : List Nat} {p : Parts} {r : List Nat}
    (h : parse_decimal s = .ok (p, r))
    (h1 : MIN_SCALE ≤ codeScale p) (h2 : codeScale p ≤ MAX_SCALE) :
    (codePrecision p = MAX_PRECISION → ∃ d, parse_str s = .ok (d, r)) ∧
    (codePrecision p = MAX_PRECISION + 1 → parse_str s = .error .Overflow) := by
  rw [parse_str_char h]
  constructor
  · intro hp
    rw [if_neg (by omega), if_neg ((not_or).mpr ⟨by omega, by omega⟩)]
    exact ⟨_, rfl⟩
  · intro hp
    rw [if_pos (by omega)]

/-- C2 (witness): the 38-nine literal sits exactly at MAX_PRECISION and
parses successfully. -/
theorem C2_witness :
    parse_decimal (List.replicate 38 57) =
      .ok (⟨Sign.Positive, List.replicate 38 57, [], 0⟩, []) ∧
    ∃ d, parse_str (List.replicate 38 57) = .ok (d, []) :=
  have h : parse_decimal (List.replicate 38 57) =
      .ok (⟨Sign.Positive, List.replicate 38 57, [], 0⟩, []) := rfl
  ⟨h, (C2_precision_boundary h (by decide) (by decide)).1 (by decide)⟩

/-- C5: after an `e`/`E` marker, an empty exponent digit run fails with
InvalidFormat; a digit run longer than 3 after stripping leading zeros
fails with Overflow; a decoded exponent outside
`[−MAX_SCALE, −MIN_SCALE]` fails with Overflow; and `"1e1000"` fails with
Overflow. -/
theorem C5_exponent_rules :
    (∀ s, (eat_digits (extract_sign s).2).1 = [] →
      extract_exponent s = .error .Invalid) ∧
    (∀ s, 3 < (stripLeadingZeros (eat_digits (extract_sign s).2).1).length →
      extract_exponent s = .error .Overflow) ∧
    (∀ s, (eat_digits (extract_sign s).2).1 ≠ [] →
      (stripLeadingZeros (eat_digits (extract_sign s).2).1).length ≤ 3 →
      (expValue s > -MIN_SCALE ∨ expValue s < -MAX_SCALE) →
      extract_exponent s = .error .Overflow) ∧
    from_str [49, 101, 49, 48, 48, 48] = .error .Overflow := by
  refine ⟨?_, ?_, ?_, rfl⟩
  · intro s hs
    simp [extract_exponent, hs]
  · intro s hs
    have hne : (eat_digits (extract_sign s).2).1 ≠ [] := by
      intro h0
      rw [h0] at hs
      simp [stripLeadingZeros] at hs
    simp only [extract_exponent]
    rw [if_neg (by simpa [List.isEmpty_iff] using hne), if_pos (by omega)]
  · intro s h1 h2 h3
    simp only [extract_exponent]
    rw [if_neg (by simpa [List.isEmpty_iff] using h1), if_neg (by omega),
      if_pos h3]

/-- C5 (witness): the three failure modes at concrete inputs — empty run,
the four-digit run `"1000"`, and the in-cap but out-of-range run
`"127"`. -/
theorem C5_witness :
    extract_exponent [] = .error .Invalid ∧
    extract_exponent [49, 48, 48, 48] = .error .Overflow ∧
    extract_exponent [49, 50, 55] = .error .Overflow :=
  ⟨C5_exponent_rules.1 [] rfl,
   C5_exponent_rules.2.1 [49, 48, 48, 48] (by decide),
   C5_exponent_rules.2.2.1 [49, 50, 55] (by decide) (by decide) (by decide)⟩

/-- `extract_exponent` never signals `Empty`. -/
theorem extract_exponent_ne_empty (s : List Nat) :
    extract_exponent s ≠ .error .Empty := by
  unfold extract_exponent
  simp only []
  split
  · simp
  split
  · simp
  split
  · simp
  · simp

/-- `parse_decimal` never signals `Empty`. -/
theorem parse_decimal_ne_empty (s : List Nat) :
    parse_decimal s ≠ .error .Empty := by
  unfold parse_decimal
  simp only []
  split
  · simp
  split
  · split
    · simp
    · split
      · rename_i e heq
        intro hc
        simp only [Except.error.injEq] at hc
        subst hc
        exact extract_exponent_ne_empty _ heq
      · simp
  split
  · split
    · simp
    · split
      · split
        · rename_i e heq
          intro hc
          simp only [Except.error.injEq] at hc
          subst hc
          exact extract_exponent_ne_empty _ heq
        · simp
      · simp
  · split
    · simp
    · simp

/-- `parse_str` never signals `Empty`. -/
theorem parse_str_ne_empty (s : List Nat) :
    parse_str s ≠ .error .Empty := by
  unfold parse_str
  split
  · rename_i e heq
    intro hc
    simp only [Except.error.injEq] at hc
    subst hc
    exact parse_decimal_ne_empty _ heq
  · simp only []
    split
    · simp
    split
    · simp
    · simp

/-- C6: the top-level parse returns EmptyInput exactly when the input is
empty or consists entirely of whitespace bytes; any other input yields a
value, InvalidFormat, or Overflow, never EmptyInput. -/
theorem C6_empty_iff (s : List Nat) :
    from_str s = .error .Empty ↔ ∀ b ∈ s, isWhitespaceByte b = true := by
  constructor
  · intro h
    unfold from_str at h
    simp only [] at h
    split at h
    · rename_i he
      rwa [List.isEmpty_iff, eat_whitespaces, List.dropWhile_eq_nil_iff] at he
    · split at h
      · exact absurd h (by simp)
      · split at h
        · rename_i e heq
          simp only [Except.error.injEq] at h
          subst h
          exact absurd heq (parse_str_ne_empty _)
        · split at h
          · exact absurd h (by simp)
          · exact absurd h (by simp)
  · intro h
    unfold from_str
    simp only []
    rw [if_pos]
    rw [List.isEmpty_iff, eat_whitespaces, List.dropWhile_eq_nil_iff]
    exact h

theorem foldDigitsExact_le (acc : Nat) (l : List Nat) :
    acc ≤ foldDigitsExact acc l := by
  induction l generalizing acc with
  | nil => exact Nat.le_refl _
  | cons b t ih =>
      calc acc ≤ acc * 10 + (b - 48) := by omega
        _ ≤ foldDigitsExact (acc * 10 + (b - 48)) t := ih _
        _ = foldDigitsExact acc (b :: t) := rfl

theorem foldDigitsExact_lt (acc : Nat) (l : List Nat)
    (h : ∀ b ∈ l, isDigitByte b = true) :
    foldDigitsExact acc l < (acc + 1) * 10 ^ l.length := by
  induction l generalizing acc with
  | nil => simp [foldDigitsExact]
  | cons b t ih =>
      have hb : b - 48 ≤ 9 := by
        have := h b (List.mem_cons_self b t)
        simp only [isDigitByte, Bool.and_eq_true, decide_eq_true_eq] at this
        omega
      have ht := ih (acc * 10 + (b - 48)) (fun c hc => h c (List.mem_cons_of_mem _ hc))
      have hstep : (acc * 10 + (b - 48) + 1) * 10 ^ t.length ≤
          (acc + 1) * 10 ^ (b :: t).length := by
        have h1 : acc * 10 + (b - 48) + 1 ≤ (acc + 1) * 10 := by omega
        calc (acc * 10 + (b - 48) + 1) * 10 ^ t.length
            ≤ (acc + 1) * 10 * 10 ^ t.length :=
              Nat.mul_le_mul_right _ h1
          _ = (acc + 1) * 10 ^ (b :: t).length := by
              rw [List.length_cons, pow_succ]
              ring
      calc foldDigitsExact acc (b :: t)
          = foldDigitsExact (acc * 10 + (b - 48)) t := rfl
        _ < (acc * 10 + (b - 48) + 1) * 10 ^ t.length := ht
        _ ≤ (acc + 1) * 10 ^ (b :: t).length := hstep

/-- When the exact fold stays below `2 ^ 128`, the wrapping `u128` fold
computes exactly the same value: no overflow occurs. -/
theorem foldDigitsU128_eq_exact (acc : Nat) (l : List Nat)
    (h : foldDigitsExact acc l < U128_MOD) :
    foldDigitsU128 acc l = foldDigitsExact acc l := by
  induction l generalizing acc with
  | nil => rfl
  | cons b t ih =>
      have hstep : acc * 10 + (b - 48) < U128_MOD :=
        Nat.lt_of_le_of_lt (foldDigitsExact_le _ t) h
      calc foldDigitsU128 acc (b :: t)
          = foldDigitsU128 ((acc * 10 + (b - 48)) % U128_MOD) t := rfl
        _ = foldDigitsU128 (acc * 10 + (b - 48)) t := by
            rw [Nat.mod_eq_of_lt hstep]
        _ = foldDigitsExact (acc * 10 + (b - 48)) t := ih _ h
        _ = foldDigitsExact acc (b :: t) := rfl

/-- Core accumulator bound: for digit runs whose counted precision is in
range, the exact fold stays below `10 ^ MAX_PRECISION` — also in the
`"0.xxx"` case, where the folded leading zero contributes nothing. -/
theorem parts_exact_lt {p : Parts}
    (hint : ∀ b ∈ p.integral, isDigitByte b = true)
    (hfrac : ∀ b ∈ p.fractional, isDigitByte b = true)
    (hprec : codePrecision p ≤ MAX_PRECISION) :
    foldDigitsExact (foldDigitsExact 0 p.integral) p.fractional <
      10 ^ MAX_PRECISION := by
  by_cases hz : p.integral = [48]
  · have h0 : foldDigitsExact 0 p.integral = 0 := by
      rw [hz]; rfl
    rw [h0]
    have := foldDigitsExact_lt 0 p.fractional hfrac
    simp only [Nat.zero_add, Nat.one_mul] at this
    have hlen : p.fractional.length ≤ MAX_PRECISION := by
      unfold codePrecision at hprec
      rw [if_pos hz] at hprec
      exact hprec
    exact Nat.lt_of_lt_of_le this
      (Nat.pow_le_pow_right (by norm_num) hlen)
  · have happ : foldDigitsExact (foldDigitsExact 0 p.integral) p.fractional =
        foldDigitsExact 0 (p.integral ++ p.fractional) := by
      unfold foldDigitsExact
      rw [List.foldl_append]
    rw [happ]
    have hall : ∀ b ∈ p.integral ++ p.fractional, isDigitByte b = true := by
      intro b hb
      rcases List.mem_append.mp hb with hb | hb
      · exact hint b hb
      · exact hfrac b hb
    have := foldDigitsExact_lt 0 (p.integral ++ p.fractional) hall
    simp only [Nat.zero_add, Nat.one_mul, List.length_append] at this
    have hlen : p.integral.length + p.fractional.length ≤ MAX_PRECISION := by
      unfold codePrecision at hprec
      rw [if_neg hz] at hprec
      exact hprec
    exact Nat.lt_of_lt_of_le this
      (Nat.pow_le_pow_right (by norm_num) hlen)

/-- The exact fold of in-precision digit runs fits the `u128`
accumulator. -/
theorem parts_exact_lt_mod {p : Parts}
    (hint : ∀ b ∈ p.integral, isDigitByte b = true)
    (hfrac : ∀ b ∈ p.fractional, isDigitByte b = true)
    (hprec : codePrecision p ≤ MAX_PRECISION) :
    foldDigitsExact (foldDigitsExact 0 p.integral) p.fractional < U128_MOD := by
  refine Nat.lt_of_lt_of_le (parts_exact_lt hint hfrac hprec) ?_
  unfold MAX_PRECISION U128_MOD
  norm_num

/-- C7: once the precision check has passed, the wrapping `u128`
accumulation of the integral then fractional digit runs coincides with the
exact mathematical fold — no overflow, including the `"0.xxx"` case where
one more digit than the counted precision is folded — and the resulting
magnitude is strictly below `10 ^ MAX_PRECISION`. -/
theorem C7_accumulator_safe {s : List Nat} {p : Parts} {r : List Nat}
    (h : parse_decimal s = .ok (p, r))
    (hprec : codePrecision p ≤ MAX_PRECISION) :
    accumulated p = foldDigitsExact (foldDigitsExact 0 p.integral) p.fractional ∧
    accumulated p < 10 ^ MAX_PRECISION := by
  obtain ⟨hint, hfrac⟩ := parse_decimal_digits h
  have hexact := parts_exact_lt hint hfrac hprec
  have hmod := parts_exact_lt_mod hint hfrac hprec
  have hint_lt : foldDigitsExact 0 p.integral < U128_MOD :=
    Nat.lt_of_le_of_lt (foldDigitsExact_le _ p.fractional) hmod
  have heq : accumulated p =
      foldDigitsExact (foldDigitsExact 0 p.integral) p.fractional := by
    unfold accumulated
    rw [foldDigitsU128_eq_exact 0 p.integral hint_lt,
      foldDigitsU128_eq_exact _ p.fractional hmod]
  exact ⟨heq, heq ▸ hexact⟩

/-- C7 (witness): the literal `"0.5"`, whose integral run is exactly
`"0"`, folds two digits for a counted precision of one, without
overflow. -/
theorem C7_witness :
    parse_decimal [48, 46, 53] = .ok (⟨Sign.Positive, [48], [53], 0⟩, []) ∧
    accumulated ⟨Sign.Positive, [48], [53], 0⟩ =
      foldDigitsExact (foldDigitsExact 0 [48]) [53] ∧
    accumulated ⟨Sign.Positive, [48], [53], 0⟩ < 10 ^ MAX_PRECISION :=
  have h : parse_decimal [48, 46, 53] =
      .ok (⟨Sign.Positive, [48], [53], 0⟩, []) := rfl
  have hc := C7_accumulator_safe h (by decide)
  ⟨h, hc.1, hc.2⟩

theorem decodeDigitChecked_digit {b : Nat} (h : isDigitByte b = true) :
    decodeDigitChecked b = some (b - 48) := by
  simp only [isDigitByte, Bool.and_eq_true, decide_eq_true_eq] at h
  simp [decodeDigitChecked, h.1]

/-- For digit runs whose exact fold fits, the checked `u128` fold
succeeds and computes the exact fold. -/
theorem foldDigitsU128Checked_eq {l : List Nat} :
    ∀ {acc : Nat}, (∀ b ∈ l, isDigitByte b = true) →
    foldDigitsExact acc l < U128_MOD →
    foldDigitsU128Checked acc l = some (foldDigitsExact acc l) := by
  induction l with
  | nil => intro acc _ _; rfl
  | cons b t ih =>
      intro acc hd hlt
      have hb := hd b (List.mem_cons_self b t)
      have hstep : acc * 10 + (b - 48) < U128_MOD :=
        Nat.lt_of_le_of_lt (foldDigitsExact_le _ t) hlt
      have h1 : foldDigitsU128Checked acc (b :: t) =
          foldDigitsU128Checked (acc * 10 + (b - 48)) t := by
        unfold foldDigitsU128Checked
        rw [List.foldl_cons]
        simp only [decodeDigitChecked_digit hb, hstep, if_true]
      rw [h1, ih (fun c hc => hd c (List.mem_cons_of_mem _ hc)) hlt]
      rfl

/-- The exponent decoding step of `extract_exponent`, as an explicit
function for reasoning. -/
def expStep (r : Int) (n : Nat) : Int := r * 10 + ((n - 48 : Nat) : Int)

theorem foldExp_from_ge : ∀ (l : List Nat) (r : Int), 0 ≤ r →
    r ≤ List.foldl expStep r l ∧ 0 ≤ List.foldl expStep r l := by
  intro l
  induction l with
  | nil => intro r hr; exact ⟨le_refl _, hr⟩
  | cons b t ih =>
      intro r hr
      have hstep : r ≤ expStep r b ∧ 0 ≤ expStep r b := by
        unfold expStep
        constructor
        · have : (0 : Int) ≤ ((b - 48 : Nat) : Int) := Int.natCast_nonneg _
          nlinarith
        · positivity
      have := ih (expStep r b) hstep.2
      exact ⟨le_trans hstep.1 this.1, this.2⟩

theorem foldExp_from_lt : ∀ (l : List Nat) (r : Int), 0 ≤ r →
    (∀ b ∈ l, isDigitByte b = true) →
    List.foldl expStep r l < (r + 1) * 10 ^ l.length := by
  intro l
  induction l with
  | nil => intro r hr _; simp
  | cons b t ih =>
      intro r hr hd
      have hb : ((b - 48 : Nat) : Int) ≤ 9 := by
        have := hd b (List.mem_cons_self b t)
        simp only [isDigitByte, Bool.and_eq_true, decide_eq_true_eq] at this
        omega
      have hstep0 : 0 ≤ expStep r b := by
        unfold expStep
        positivity
      have ht := ih (expStep r b) hstep0 (fun c hc => hd c (List.mem_cons_of_mem _ hc))
      have hbound : (expStep r b + 1) * 10 ^ t.length ≤
          (r + 1) * 10 ^ (b :: t).length := by
        have h1 : expStep r b + 1 ≤ (r + 1) * 10 := by
          unfold expStep
          omega
        calc (expStep r b + 1) * 10 ^ t.length
            ≤ (r + 1) * 10 * 10 ^ t.length :=
              mul_le_mul_of_nonneg_right h1 (by positivity)
          _ = (r + 1) * 10 ^ (b :: t).length := by
              rw [List.length_cons, pow_succ]
              ring
      calc List.foldl expStep r (b :: t) = List.foldl expStep (expStep r b) t := rfl
        _ < (expStep r b + 1) * 10 ^ t.length := ht
        _ ≤ (r + 1) * 10 ^ (b :: t).length := hbound

/-- For digit runs of at most three digits, the checked `i16` exponent
fold succeeds and computes the exact decoded value. -/
theorem foldExpDigitsChecked_eq {l : List Nat}
    (hd : ∀ b ∈ l, isDigitByte b = true) (hlen : l.length ≤ 3) :
    foldExpDigitsChecked l = some (foldExpDigits l) := by
  have hfin : List.foldl expStep 0 l ≤ 32767 := by
    have := foldExp_from_lt l 0 le_rfl hd
    have hp : (10 : Int) ^ l.length ≤ 10 ^ 3 :=
      pow_le_pow_right₀ (by norm_num) hlen
    simp only [zero_add, one_mul] at this
    omega
  suffices hgen : ∀ (t : List Nat) (r : Int), 0 ≤ r →
      (∀ b ∈ t, isDigitByte b = true) →
      List.foldl expStep r t ≤ 32767 →
      List.foldl (fun a n =>
        match a with
        | none => none
        | some a =>
            match decodeDigitChecked n with
            | none => none
            | some d =>
                if a * 10 + (d : Int) ≤ 32767 then some (a * 10 + (d : Int))
                else none) (some r) t = some (List.foldl expStep r t) by
    exact hgen l 0 le_rfl hd hfin
  intro t
  induction t with
  | nil => intro r _ _ _; rfl
  | cons b u ih =>
      intro r hr hdt hle
      have hb := hdt b (List.mem_cons_self b u)
      have hstep0 : 0 ≤ expStep r b := by
        unfold expStep
        positivity
      have hmono := foldExp_from_ge u (expStep r b) hstep0
      have hcond : r * 10 + ((b - 48 : Nat) : Int) ≤ 32767 := by
        have : expStep r b ≤ List.foldl expStep (expStep r b) u := hmono.1
        have : expStep r b ≤ 32767 := le_trans this hle
        unfold expStep at this
        exact this
      simp only [List.foldl_cons, decodeDigitChecked_digit hb, if_pos hcond]
      exact ih (expStep r b) hstep0
        (fun c hc => hdt c (List.mem_cons_of_mem _ hc)) hle

/-- The checked exponent extractor agrees with the source extractor on
every input: its guarded arithmetic never trips. -/
theorem extract_exponent_checked_eq (s : List Nat) :
    extract_exponent_checked s = some (extract_exponent s) := by
  unfold extract_exponent_checked extract_exponent
  simp only []
  split
  · rfl
  split
  · rfl
  · rename_i hne hlen
    have hd : ∀ b ∈ stripLeadingZeros (eat_digits (extract_sign s).2).1,
        isDigitByte b = true :=
      fun b hb => mem_eat_digits_fst (mem_stripLeadingZeros hb)
    rw [foldExpDigitsChecked_eq hd (by omega)]
    unfold expValue
    cases (extract_sign s).1
    · dsimp only
      split
      · rfl
      · rfl
    · dsimp only
      split
      · rfl
      · rfl

/-- The checked mantissa parser agrees with the source parser on every
input. -/
theorem parse_decimal_checked_eq (s : List Nat) :
    parse_decimal_checked s = some (parse_decimal s) := by
  unfold parse_decimal_checked parse_decimal
  simp only []
  split
  · rfl
  split
  · split
    · rfl
    · rw [extract_exponent_checked_eq]
      cases extract_exponent ((eat_digits (extract_sign s).2).2).tail with
      | error e => rfl
      | ok v => rfl
  split
  · split
    · rfl
    · split
      · rw [extract_exponent_checked_eq]
        cases extract_exponent
            ((eat_digits ((eat_digits (extract_sign s).2).2).tail).2).tail with
        | error e => rfl
        | ok v => rfl
      · rfl
  · split
    · rfl
    · rfl

/-- The checked `parse_str` agrees with the source `parse_str` on every
input: with the precision check passed, neither accumulation loop can
overflow. -/
theorem parse_str_checked_eq (s : List Nat) :
    parse_str_checked s = some (parse_str s) := by
  unfold parse_str_checked parse_str
  rw [parse_decimal_checked_eq]
  cases hpd : parse_decimal s with
  | error e => rfl
  | ok v =>
      obtain ⟨p, s1⟩ := v
      obtain ⟨hint, hfrac⟩ := parse_decimal_digits hpd
      simp only []
      split
      · rfl
      · rename_i hprec
        split
        · rfl
        · have hprec' : codePrecision p ≤ MAX_PRECISION := by omega
          have hmod := parts_exact_lt_mod hint hfrac hprec'
          have hint_lt : foldDigitsExact 0 p.integral < U128_MOD :=
            Nat.lt_of_le_of_lt (foldDigitsExact_le _ p.fractional) hmod
          rw [foldDigitsU128Checked_eq hint hint_lt]
          dsimp only
          rw [foldDigitsU128Checked_eq hfrac hmod]
          dsimp only
          rw [foldDigitsU128_eq_exact 0 p.integral hint_lt,
            foldDigitsU128_eq_exact _ p.fractional hmod]

/-- The checked NaN detector agrees with the source detector: the
three-byte slice is only taken when three bytes remain. -/
theorem extract_nan_checked_eq (s : List Nat) :
    extract_nan_checked s = some (extract_nan s) := by
  match s with
  | [] => rfl
  | [a] => rfl
  | [a, b] => rfl
  | a :: b :: c :: rest =>
      unfold extract_nan_checked extract_nan
      rw [if_neg (by simp)]

/-- C9: the top-level parse is total and panic-free — on every input the
pipeline with all debug-checked arithmetic (underflow on `n − b'0'`,
`u128`/`i16` overflow, the three-byte NaN lookahead) completes and agrees
with the unchecked semantics, returning `Ok` or an error. -/
theorem C9_no_panic (s : List Nat) :
    from_str_checked s = some (from_str s) := by
  unfold from_str_checked from_str
  simp only []
  split
  · rfl
  · rw [extract_nan_checked_eq]
    rcases hnan : extract_nan (eat_whitespaces s) with ⟨is_nan, s2⟩
    simp only []
    split
    · rfl
    · rw [parse_str_checked_eq]
      cases parse_str s2 with
      | error e => rfl
      | ok v =>
          obtain ⟨n, s3⟩ := v
          simp only []
          split
          · rfl
          · rfl

/-! ## Whitespace framing lemmas -/

/-- A whitespace byte is none of the bytes the grammar dispatches on. -/
theorem ws_byte_facts {b : Nat} (h : isWhitespaceByte b = true) :
    isDigitByte b = false ∧ b ≠ 43 ∧ b ≠ 45 ∧ b ≠ 101 ∧ b ≠ 69 ∧ b ≠ 46 ∧
    toAsciiLowercase b ≠ 110 ∧ toAsciiLowercase b ≠ 97 := by
  simp only [isWhitespaceByte, Bool.or_eq_true, beq_iff_eq] at h
  rcases h with ((((h | h) | h) | h) | h) <;> subst h <;> decide

theorem takeWhile_append_none {p : Nat → Bool} {x w : List Nat}
    (hw : ∀ b ∈ w, p b = false) :
    List.takeWhile p (x ++ w) = List.takeWhile p x := by
  induction x with
  | nil =>
      cases w with
      | nil => rfl
      | cons c w' => simp [List.takeWhile_cons, hw c (List.mem_cons_self c w')]
  | cons a x' ih =>
      rw [List.cons_append, List.takeWhile_cons, List.takeWhile_cons]
      by_cases ha : p a
      · rw [if_pos ha, if_pos ha, ih]
      · rw [if_neg ha, if_neg ha]

theorem dropWhile_append_none {p : Nat → Bool} {x w : List Nat}
    (hw : ∀ b ∈ w, p b = false) :
    List.dropWhile p (x ++ w) = List.dropWhile p x ++ w := by
  induction x with
  | nil =>
      cases w with
      | nil => rfl
      | cons c w' => simp [List.dropWhile_cons, hw c (List.mem_cons_self c w')]
  | cons a x' ih =>
      rw [List.cons_append, List.dropWhile_cons, List.dropWhile_cons]
      by_cases ha : p a
      · rw [if_pos ha, if_pos ha, ih]
      · rw [if_neg ha, if_neg ha, List.cons_append]

/-- Leading whitespace is consumed before the rest is examined. -/
theorem eat_whitespaces_append_all {w y : List Nat}
    (hw : ∀ b ∈ w, isWhitespaceByte b = true) :
    eat_whitespaces (w ++ y) = eat_whitespaces y := by
  unfold eat_whitespaces
  rw [List.dropWhile_append, if_pos]
  rw [List.isEmpty_iff, List.dropWhile_eq_nil_iff]
  exact hw

/-- Trimming stops inside the original input when something non-blank
remains there. -/
theorem eat_whitespaces_append_ne {s y : List Nat}
    (hs : eat_whitespaces s ≠ []) :
    eat_whitespaces (s ++ y) = eat_whitespaces s ++ y := by
  unfold eat_whitespaces at hs ⊢
  rw [List.dropWhile_append, if_neg]
  simpa [List.isEmpty_iff] using hs

theorem append_isEmpty_of_ne {s w : List Nat} (h : ¬(s.isEmpty = true)) :
    ¬((s ++ w).isEmpty = true) := by
  simp only [List.isEmpty_iff, List.append_eq_nil] at h ⊢
  intro hc
  exact h hc.1

/-- Appending trailing whitespace does not change the digit scan. -/
theorem eat_digits_append {x w : List Nat}
    (hw : ∀ b ∈ w, isWhitespaceByte b = true) :
    eat_digits (x ++ w) = ((eat_digits x).1, (eat_digits x).2 ++ w) := by
  have hwd : ∀ b ∈ w, isDigitByte b = false :=
    fun b hb => (ws_byte_facts (hw b hb)).1
  unfold eat_digits
  rw [takeWhile_append_none hwd, dropWhile_append_none hwd]

/-- Appending trailing whitespace does not change the sign scan. -/
theorem extract_sign_append {x w : List Nat}
    (hw : ∀ b ∈ w, isWhitespaceByte b = true) :
    extract_sign (x ++ w) = ((extract_sign x).1, (extract_sign x).2 ++ w) := by
  cases x with
  | nil =>
      simp only [List.nil_append]
      unfold extract_sign
      cases w with
      | nil => rfl
      | cons c w' =>
          obtain ⟨-, h43, h45, -⟩ := ws_byte_facts (hw c (List.mem_cons_self c w'))
          rw [if_neg (by simp [h43]), if_neg (by simp [h45])]
          rfl
  | cons a x' =>
      by_cases h43 : a = 43
      · subst h43
        rfl
      by_cases h45 : a = 45
      · subst h45
        rfl
      · unfold extract_sign
        rw [List.cons_append]
        simp only [List.head?_cons, List.tail_cons]
        rw [if_neg (by simp [h43]), if_neg (by simp [h45]),
          if_neg (by simp [h43]), if_neg (by simp [h45])]
        rfl

/-- Appending trailing whitespace does not change the decoded exponent
value. -/
theorem expValue_append {x w : List Nat}
    (hw : ∀ b ∈ w, isWhitespaceByte b = true) :
    expValue (x ++ w) = expValue x := by
  unfold expValue
  rw [extract_sign_append hw]
  dsimp only
  rw [eat_digits_append hw]

/-- A successful exponent extraction is preserved by trailing whitespace,
which lands in the remainder. -/
theorem extract_exponent_append {x w : List Nat} {e : Int} {r : List Nat}
    (hw : ∀ b ∈ w, isWhitespaceByte b = true)
    (h : extract_exponent x = .ok (e, r)) :
    extract_exponent (x ++ w) = .ok (e, r ++ w) := by
  unfold extract_exponent at h ⊢
  simp only [] at h ⊢
  rw [extract_sign_append hw]
  dsimp only
  rw [eat_digits_append hw]
  dsimp only
  rw [expValue_append hw]
  split at h
  · exact absurd h (by simp)
  split at h
  · exact absurd h (by simp)
  split at h
  · exact absurd h (by simp)
  · rename_i h1 h2 h3
    rw [if_neg h1, if_neg h2, if_neg h3]
    simp only [Except.ok.injEq, Prod.mk.injEq] at h
    obtain ⟨he, hr⟩ := h
    subst he
    subst hr
    rfl

/-- Whitespace can head neither an exponent marker nor a decimal point. -/
theorem ws_head_not_marker {w : List Nat}
    (hw : ∀ b ∈ w, isWhitespaceByte b = true) :
    ¬(w.head? = some 101 ∨ w.head? = some 69) ∧ ¬(w.head? = some 46) := by
  cases w with
  | nil => simp
  | cons c w' =>
      obtain ⟨-, -, -, h101, h69, h46, -⟩ :=
        ws_byte_facts (hw c (List.mem_cons_self c w'))
      simp only [List.head?_cons, Option.some.injEq]
      constructor
      · rintro (hc | hc)
        · exact h101 hc
        · exact h69 hc
      · intro hc
        exact h46 hc

/-- A successful mantissa parse is preserved by trailing whitespace,
which lands in the remainder. -/
theorem parse_decimal_append {x w : List Nat} {p : Parts} {r : List Nat}
    (hw : ∀ b ∈ w, isWhitespaceByte b = true)
    (h : parse_decimal x = .ok (p, r)) :
    parse_decimal (x ++ w) = .ok (p, r ++ w) := by
  unfold parse_decimal at h ⊢
  simp only [] at h ⊢
  rw [extract_sign_append hw]
  dsimp only
  split at h
  · exact absurd h (by simp)
  · rename_i hne
    rw [if_neg (append_isEmpty_of_ne hne)]
    rw [eat_digits_append hw]
    dsimp only
    rcases hs2 : (eat_digits (extract_sign x).2).2 with _ | ⟨c, s2'⟩ <;>
      rw [hs2] at h
    · -- the digit scan consumed everything: only whitespace follows
      simp only [List.nil_append]
      obtain ⟨hm, hdot⟩ := ws_head_not_marker hw
      simp only [List.head?_nil] at h
      rw [if_neg (by simp)] at h
      rw [if_neg (by simp)] at h
      rw [if_neg hm, if_neg hdot]
      split at h
      · exact absurd h (by simp)
      · rename_i hni
        rw [if_neg hni]
        simp only [Except.ok.injEq, Prod.mk.injEq] at h
        obtain ⟨hp, hr⟩ := h
        subst hp
        subst hr
        rfl
    · simp only [List.cons_append, List.head?_cons, List.tail_cons] at h ⊢
      split at h
      · rename_i hcond
        rw [if_pos hcond]
        split at h
        · exact absurd h (by simp)
        · rename_i hi
          rw [if_neg hi]
          split at h
          · exact absurd h (by simp)
          · rename_i e s3 heq
            rw [extract_exponent_append hw heq]
            simp only [Except.ok.injEq, Prod.mk.injEq] at h
            obtain ⟨hp, hr⟩ := h
            subst hp
            subst hr
            rfl
      · rename_i hcond
        rw [if_neg hcond]
        split at h
        · rename_i hdot
          rw [if_pos hdot]
          rw [eat_digits_append hw]
          dsimp only
          split at h
          · exact absurd h (by simp)
          · rename_i hif
            rw [if_neg hif]
            rcases hs3 : (eat_digits s2').2 with _ | ⟨c2, s3'⟩ <;>
              rw [hs3] at h
            · simp only [List.nil_append]
              obtain ⟨hm2, -⟩ := ws_head_not_marker hw
              simp only [List.head?_nil] at h
              rw [if_neg (by simp)] at h
              rw [if_neg hm2]
              simp only [Except.ok.injEq, Prod.mk.injEq] at h
              obtain ⟨hp, hr⟩ := h
              subst hp
              subst hr
              rfl
            · simp only [List.cons_append, List.head?_cons,
                List.tail_cons] at h ⊢
              split at h
              · rename_i hcond2
                rw [if_pos hcond2]
                split at h
                · exact absurd h (by simp)
                · rename_i e s4 heq
                  rw [extract_exponent_append hw heq]
                  simp only [Except.ok.injEq, Prod.mk.injEq] at h
                  obtain ⟨hp, hr⟩ := h
                  subst hp
                  subst hr
                  rfl
              · rename_i hcond2
                rw [if_neg hcond2]
                simp only [Except.ok.injEq, Prod.mk.injEq] at h
                obtain ⟨hp, hr⟩ := h
                subst hp
                subst hr
                rfl
        · rename_i hdot
          rw [if_neg hdot]
          split at h
          · exact absurd h (by simp)
          · rename_i hi
            rw [if_neg hi]
            simp only [Except.ok.injEq, Prod.mk.injEq] at h
            obtain ⟨hp, hr⟩ := h
            subst hp
            subst hr
            rfl

/-- A successful `parse_str` is preserved by trailing whitespace, which
lands in the remainder. -/
theorem parse_str_append {x w : List Nat} {d : Decimal} {r : List Nat}
    (hw : ∀ b ∈ w, isWhitespaceByte b = true)
    (h : parse_str x = .ok (d, r)) :
    parse_str (x ++ w) = .ok (d, r ++ w) := by
  unfold parse_str at h
  split at h
  · exact absurd h (by simp)
  · rename_i p s1 heq
    rw [parse_str_char (parse_decimal_append hw heq)]
    simp only [] at h
    split at h
    · exact absurd h (by simp)
    split at h
    · exact absurd h (by simp)
    · rename_i h1 h2
      rw [if_neg h1, if_neg h2]
      simp only [Except.ok.injEq, Prod.mk.injEq] at h
      obtain ⟨hd, hr⟩ := h
      subst hd
      subst hr
      rfl

/-- When `extract_nan` does not fire, it returns its input unchanged. -/
theorem extract_nan_false {t r : List Nat} (h : extract_nan t = (false, r)) :
    r = t := by
  rcases t with _ | ⟨a, _ | ⟨b, _ | ⟨c, rest⟩⟩⟩
  · simpa [extract_nan] using h.symm
  · simpa [extract_nan] using h.symm
  · simpa [extract_nan] using h.symm
  · simp only [extract_nan] at h
    split at h
    · simp at h
    · simp only [Prod.mk.injEq] at h
      exact h.2.symm

/-- Trailing whitespace cannot turn a non-NaN token into NaN: whitespace
bytes never lowercase to `'n'` or `'a'`. -/
theorem extract_nan_append {t w : List Nat}
    (hw : ∀ b ∈ w, isWhitespaceByte b = true)
    (h : extract_nan t = (false, t)) (hne : t ≠ []) :
    extract_nan (t ++ w) = (false, t ++ w) := by
  rcases t with _ | ⟨a, _ | ⟨b, _ | ⟨c, rest⟩⟩⟩
  · exact absurd rfl hne
  · rcases w with _ | ⟨c1, _ | ⟨c2, w''⟩⟩
    · simpa using h
    · rfl
    · obtain ⟨-, -, -, -, -, -, -, h97⟩ :=
        ws_byte_facts (hw c1 (List.mem_cons_self c1 _))
      simp only [List.cons_append, List.nil_append, extract_nan]
      rw [if_neg]
      simp only [Bool.and_eq_true, beq_iff_eq]
      rintro ⟨⟨-, hc⟩, -⟩
      exact h97 hc
  · rcases w with _ | ⟨c1, w'⟩
    · simpa using h
    · obtain ⟨-, -, -, -, -, -, h110, -⟩ :=
        ws_byte_facts (hw c1 (List.mem_cons_self c1 _))
      simp only [List.cons_append, List.nil_append, extract_nan]
      rw [if_neg]
      simp only [Bool.and_eq_true, beq_iff_eq]
      rintro ⟨-, hc⟩
      exact h110 hc
  · simp only [extract_nan] at h
    simp only [List.cons_append, extract_nan]
    split at h
    · simp at h
    · rename_i hcond
      rw [if_neg hcond]

/-- C8: any literal accepted by the parser is still accepted, with the
same value, when arbitrary ASCII whitespace is appended on either side;
whitespace embedded inside the token, as in `"- 1"`, is InvalidFormat. -/
theorem C8_whitespace_tolerance :
    (∀ s w1 w2 d, from_str s = .ok d →
      (∀ b ∈ w1, isWhitespaceByte b = true) →
      (∀ b ∈ w2, isWhitespaceByte b = true) →
      from_str (w1 ++ s ++ w2) = .ok d) ∧
    from_str [45, 32, 49] = .error .Invalid := by
  refine ⟨?_, rfl⟩
  intro s w1 w2 d h hw1 hw2
  unfold from_str at h
  simp only [] at h
  split at h
  · exact absurd h (by simp)
  · rename_i hne
    obtain ⟨is_nan, s2, hnan⟩ :
        ∃ a b, extract_nan (eat_whitespaces s) = (a, b) := ⟨_, _, rfl⟩
    rw [hnan] at h
    dsimp only at h
    split at h
    · exact absurd h (by simp)
    · rename_i hnanf
      have hisf : is_nan = false := by
        cases is_nan
        · rfl
        · exact absurd rfl hnanf
      subst hisf
      have hs2 : s2 = eat_whitespaces s := extract_nan_false hnan
      subst hs2
      split at h
      · exact absurd h (by simp)
      · rename_i n s3 heq
        split at h
        · exact absurd h (by simp)
        · rename_i htrail
          simp only [Except.ok.injEq] at h
          subst h
          have hne' : eat_whitespaces s ≠ [] := by
            simpa [List.isEmpty_iff] using hne
          unfold from_str
          simp only []
          rw [List.append_assoc, eat_whitespaces_append_all hw1,
            eat_whitespaces_append_ne hne']
          rw [if_neg (append_isEmpty_of_ne hne)]
          rw [extract_nan_append hw2 hnan hne']
          dsimp only
          rw [if_neg (by simp)]
          rw [parse_str_append hw2 heq]
          dsimp only
          have htrail2 : ¬(((s3 ++ w2).any fun b => !isWhitespaceByte b) = true) := by
            rw [List.any_append]
            simp only [Bool.or_eq_true, List.any_eq_true, Bool.not_eq_true,
              not_or, not_exists, not_and]
            constructor
            · intro b hb
              by_contra hc
              exact htrail (by
                simp only [List.any_eq_true]
                exact ⟨b, hb, by simpa using hc⟩)
            · intro b hb
              simp [hw2 b hb]
          rw [if_neg htrail2]

/-- C8 (witness): `" 1 "` parses to the same value as `"1"`. -/
theorem C8_witness :
    from_str [49] = .ok (Decimal.from_parts_unchecked 1 0 false) ∧
    from_str [32, 49, 32] = .ok (Decimal.from_parts_unchecked 1 0 false) :=
  ⟨rfl,
   C8_whitespace_tolerance.1 [49] [32] [32] _ rfl (by decide) (by decide)⟩

/-- C10: a zero literal carrying an exponent keeps the scale implied by the
text: `"0e5"` parses to magnitude 0 with scale −5, while `"0"` and
`"0.000"` parse to magnitude 0 with scale 0 — two textual zeros can
construct values with different scales, and only zero's sign is
canonicalized. -/
theorem C10_zero_keeps_exponent_scale :
    from_str [48, 101, 53] = .ok (Decimal.from_parts_unchecked 0 (-5) false) ∧
    from_str [48] = .ok (Decimal.from_parts_unchecked 0 0 false) ∧
    from_str [48, 46, 48, 48, 48] = .ok (Decimal.from_parts_unchecked 0 0 false) ∧
    ((-5 : Int) ≠ 0) :=
  ⟨rfl, rfl, rfl, by decide⟩

end DecimalRs
